import Mathlib

/-!
# URLStore (store.go): in-memory map with an append-only log

A shallow embedding of `store.go`.  The Go map `urls map[string]string` is a
finite map from strings to strings (`Finmap`), so that insertion order is
irrelevant and `len` is the number of keys.  The log file is the sequence of
results a gob decoder obtains when reading it from the start: each item is
either a decoded record or a decode error; past the last item the decoder
reports `io.EOF`.  `load` stops at the first error, so what follows it in the
sequence is never read.  `save` makes a new gob encoder on every call, which
sends the type definition of `record` again; the single decoder of `load`
accepts that definition once, so only a record written to an empty file is
decodable, and `save` is modelled accordingly.  The reader/writer lock is a
no-op for a single caller and is not represented; for concurrent callers each
lock-guarded method is one atomic step of an interleaving.  `log.Println` only
writes to standard error and is not represented either.  `genKey` lives
outside `store.go` and is a parameter.
-/

namespace URLStoreModel

/-- A non-nil Go `error` value; `io.EOF` is the distinguished sentinel. -/
inductive error where
  | EOF : error
  | other : String → error
  deriving DecidableEq, Repr

/-- The Go type `record` of store.go: one key/URL pair persisted in the log. -/
structure record where
  Key : String
  URL : String
  deriving DecidableEq, Repr

/-- The error of the gob decoder on a type definition for a type it already holds. -/
def duplicateType : error :=
  error.other "gob: duplicate type received"

/-- A failed `Encode`: the error it returns, and what it left in the file.  Of
the two writes of `Encode` the first or the second can fail, leaving nothing,
or a type definition alone, or a truncated message; `left` is the failure of
a decoder on what was left, `none` when no byte was left. -/
structure WriteFailure where
  err : error
  left : Option error
  deriving DecidableEq

/-- The Go type `URLStore` of store.go: the map and the content of the log file. -/
structure URLStore where
  urls : Finmap (fun _ : String => String)
  file : List (Except error record)

namespace URLStore

/-- The store built by the first line of `NewURLStore`: an empty map over the opened file. -/
def init (f : List (Except error record)) : URLStore :=
  { urls := ∅, file := f }

/-- The method `Get`: `s.urls[key]`, which in Go is the zero value `""` for an absent key. -/
def Get (s : URLStore) (key : String) : String :=
  match s.urls.lookup key with
  | some url => url
  | none => ""

/-- The method `Set`: insert only when the key is absent; reports whether it inserted. -/
def Set (s : URLStore) (key url : String) : Bool × URLStore :=
  if key ∈ s.urls then
    (false, s)
  else
    (true, { s with urls := s.urls.insert key url })

/-- The method `Count`: `len(s.urls)`. -/
def Count (s : URLStore) : Nat :=
  s.urls.keys.card

/-- The method `save`: `gob.NewEncoder(s.file)` followed by `Encode`.  A new
encoder sends the type definition of `record` before the value, so `Encode`
makes two writes at the end of the file.  `wr` is the outcome: `none` when both
writes succeed, `some w` when `Encode` fails (see `WriteFailure`).  On
success, a decoder reading the file from the start decodes the new record only
when nothing precedes it; otherwise the decoder, which already holds the
definition of `record` (or has failed earlier), meets a second definition and
fails with `duplicateType`. -/
def save (s : URLStore) (key url : String) (wr : Option WriteFailure) :
    Option error × URLStore :=
  match wr with
  | none =>
    match s.file with
    | [] => (none, { s with file := [Except.ok ⟨key, url⟩] })
    | x :: rest => (none, { s with file := x :: rest ++ [Except.error duplicateType] })
  | some w =>
    match w.left with
    | none => (some w.err, s)
    | some e => (some w.err, { s with file := s.file ++ [Except.error e] })

/-- The method `Put`.  The Go loop `for { ... }` has no bound; `fuel` bounds the
number of iterations of the model and `none` means the loop has not returned
within `fuel` iterations.  The result is the returned key and the store. -/
def Put (genKey : Nat → String) (wr : Option WriteFailure) :
    Nat → URLStore → String → Option (String × URLStore)
  | 0, _, _ => none
  | fuel + 1, s, url =>
    let key := genKey s.Count
    match s.Set key url with
    | (true, s1) => some (key, (s1.save key url wr).2)
    | (false, s1) => Put genKey wr fuel s1 url

/-- The decode loop of `load`: `Set` every decoded record until the first
decode error, which is returned; the end of the items decodes as `io.EOF`. -/
def loadLoop : URLStore → List (Except error record) → error × URLStore
  | s, [] => (error.EOF, s)
  | s, Except.ok r :: rest => loadLoop (s.Set r.Key r.URL).2 rest
  | s, Except.error e :: _ => (e, s)

/-- The method `load`.  `seek` is the outcome of `s.file.Seek(0, 0)`. -/
def load (s : URLStore) (seek : Option error) : Option error × URLStore :=
  match seek with
  | some e => (some e, s)
  | none =>
    match loadLoop s s.file with
    | (e, s1) => if e = error.EOF then (none, s1) else (some e, s1)

end URLStore

/-- The factory `NewURLStore`.  `opened` is the outcome of `os.OpenFile`: the
content of the file, or the error on which `log.Fatal` ends the process
(`none`).  A load error is only logged and the store is returned. -/
def NewURLStore (opened : Except error (List (Except error record)))
    (seek : Option error) : Option URLStore :=
  match opened with
  | Except.error _ => none
  | Except.ok f => some ((URLStore.init f).load seek).2

open URLStore

/-! ## Harness: sequences of calls -/

/-- A sequence of `Put` calls by a single caller: each call gives the URL, the
fuel for its loop and the outcome of its write.  The result is the list of
returned keys, in call order, and the final store; `none` when some call has
not returned. -/
def PutSeq (genKey : Nat → String) :
    URLStore → List (String × Nat × Option WriteFailure) → Option (List String × URLStore)
  | s, [] => some ([], s)
  | s, (url, fuel, wr) :: rest =>
    match Put genKey wr fuel s url with
    | none => none
    | some (k, s1) =>
      match PutSeq genKey s1 rest with
      | none => none
      | some (ks, s2) => some (k :: ks, s2)

/-- One call of a method of the store, with the outcomes of the I/O it performs. -/
inductive Call where
  | Get (key : String)
  | Set (key url : String)
  | Count
  | Put (url : String) (fuel : Nat) (wr : Option WriteFailure)
  | load (seek : Option error)
  deriving DecidableEq

/-- The store after a call; `none` when the call has not returned.  `Get` and
`Count` only read the map. -/
def Call.run (genKey : Nat → String) : Call → URLStore → Option URLStore
  | Call.Get _, s => some s
  | Call.Set key url, s => some (s.Set key url).2
  | Call.Count, s => some s
  | Call.Put url fuel wr, s => (URLStore.Put genKey wr fuel s url).map Prod.snd
  | Call.load seek, s => some (s.load seek).2

/-- The store after a sequence of calls by a single caller, all of which return. -/
def runCalls (genKey : Nat → String) : URLStore → List Call → Option URLStore
  | s, [] => some s
  | s, c :: rest =>
    match c.run genKey s with
    | none => none
    | some s1 => runCalls genKey s1 rest

/-- A call of one of the exported methods `Get`, `Set`, `Count`, `Put` whose
append, if it makes one, succeeds. -/
def Call.exportedOk : Call → Bool
  | Call.Get _ => true
  | Call.Set _ _ => true
  | Call.Count => true
  | Call.Put _ _ wr => wr.isNone
  | Call.load _ => false

/-- The number of records of the log whose key is `key`. -/
def logCount (key : String) (f : List (Except error record)) : Nat :=
  f.countP (fun x => match x with
    | Except.ok r => decide (r.Key = key)
    | Except.error _ => false)

/-- Calling `Set` with every record of a list, in order. -/
def setAll (s : URLStore) (rs : List record) : URLStore :=
  rs.foldl (fun t r => (t.Set r.Key r.URL).2) s

/-- The first failure a decoder meets when it reads the items of a log in
order: the first item that is an error, or `io.EOF` when there is none. -/
def firstDecodeFailure : List (Except error record) → error
  | [] => error.EOF
  | Except.ok _ :: rest => firstDecodeFailure rest
  | Except.error e :: _ => e

/-! ## Concurrent calls of `Put`

Each lock-guarded call made by `Put` (`Count`, `Set`) is one atomic step, and so
is the append of `save`, which `Put` makes after `Set` has returned.  A
concurrent call of `Put` is at one of four places of the body of `Put`. -/

/-- The place a call of `Put` has reached: about to call `Count`; holding the
candidate `key` and about to call `Set`; back from a successful `Set` and about
to call `save`; returned with `key`. -/
inductive PutPc where
  | atCount
  | atSet (key : String)
  | atSave (key : String)
  | returned (key : String)
  deriving DecidableEq

/-- One concurrent call `Put(url)`: its argument, the outcome of the write its
`save` will make, and the place it has reached. -/
structure PutCall where
  url : String
  wr : Option WriteFailure
  pc : PutPc
  deriving DecidableEq

/-- The key a call has inserted, once its `Set` has succeeded. -/
def PutCall.key? (c : PutCall) : Option String :=
  match c.pc with
  | PutPc.atCount => none
  | PutPc.atSet _ => none
  | PutPc.atSave key => some key
  | PutPc.returned key => some key

/-- The record a call has inserted and has yet to pass to `save`: the pair its
next step, the call of `save`, writes. -/
def PutCall.pending (c : PutCall) : Option record :=
  match c.pc with
  | PutPc.atSave key => some ⟨key, c.url⟩
  | _ => none

/-- The next atomic step of one call of `Put` on the shared store. -/
def PutCall.step (genKey : Nat → String) (s : URLStore) (c : PutCall) : URLStore × PutCall :=
  match c.pc with
  | PutPc.atCount => (s, { c with pc := PutPc.atSet (genKey s.Count) })
  | PutPc.atSet key =>
    match s.Set key c.url with
    | (true, s1) => (s1, { c with pc := PutPc.atSave key })
    | (false, s1) => (s1, { c with pc := PutPc.atCount })
  | PutPc.atSave key => ((s.save key c.url c.wr).2, { c with pc := PutPc.returned key })
  | PutPc.returned _ => (s, c)

/-- The record a step inserts into the map, if it is a `Set` that succeeds. -/
def PutCall.inserts (s : URLStore) (c : PutCall) : Option record :=
  match c.pc with
  | PutPc.atSet key => if key ∈ s.urls then none else some ⟨key, c.url⟩
  | _ => none

/-- The call numbered `i` takes its next step (nothing happens when there is no such call). -/
def stepCall (genKey : Nat → String) (st : URLStore × List PutCall) (i : Nat) :
    URLStore × List PutCall :=
  match st.2[i]? with
  | none => st
  | some c => ((c.step genKey st.1).1, st.2.set i (c.step genKey st.1).2)

/-- An interleaving: the calls take steps in the order the schedule names them. -/
def runSchedule (genKey : Nat → String) :
    URLStore × List PutCall → List Nat → URLStore × List PutCall
  | st, [] => st
  | st, i :: rest => runSchedule genKey (stepCall genKey st i) rest

/-- The pairs inserted into the map along an interleaving, in the order of the inserts. -/
def insertTrace (genKey : Nat → String) : URLStore × List PutCall → List Nat → List record
  | _, [] => []
  | st, i :: rest =>
    (match st.2[i]? with
      | none => []
      | some c => (c.inserts st.1).toList) ++ insertTrace genKey (stepCall genKey st i) rest

/-- The pairs passed to `save` along an interleaving, in the order of the calls of `save`. -/
def saveTrace (genKey : Nat → String) : URLStore × List PutCall → List Nat → List record
  | _, [] => []
  | st, i :: rest =>
    (match st.2[i]? with
      | none => []
      | some c => c.pending.toList) ++ saveTrace genKey (stepCall genKey st i) rest

/-! ## Basic facts about `Set`, `Count`, `Get` -/

theorem Set_of_mem {s : URLStore} {key : String} (url : String) (h : key ∈ s.urls) :
    s.Set key url = (false, s) := by
  simp [URLStore.Set, h]

theorem Set_of_not_mem {s : URLStore} {key : String} (url : String) (h : key ∉ s.urls) :
    s.Set key url = (true, { s with urls := s.urls.insert key url }) := by
  simp [URLStore.Set, h]

theorem Set_file (s : URLStore) (key url : String) : (s.Set key url).2.file = s.file := by
  by_cases h : key ∈ s.urls
  · rw [Set_of_mem url h]
  · rw [Set_of_not_mem url h]

theorem keys_insert_of_not_mem {m : Finmap (fun _ : String => String)} {key : String}
    (url : String) : (m.insert key url).keys = insert key m.keys := by
  ext a
  simp [Finmap.mem_keys, Finmap.mem_insert]

theorem card_insert_of_not_mem {m : Finmap (fun _ : String => String)} {key : String}
    (url : String) (h : key ∉ m) : (m.insert key url).keys.card = m.keys.card + 1 := by
  rw [keys_insert_of_not_mem, Finset.card_insert_of_not_mem]
  simpa [Finmap.mem_keys] using h

theorem Get_eq_of_lookup {s : URLStore} {key url : String}
    (h : s.urls.lookup key = some url) : s.Get key = url := by
  simp [URLStore.Get, h]

theorem Get_of_not_mem {s : URLStore} {key : String} (h : key ∉ s.urls) : s.Get key = "" := by
  simp [URLStore.Get, Finmap.lookup_eq_none.mpr h]

theorem save_urls (s : URLStore) (key url : String) (wr : Option WriteFailure) :
    (s.save key url wr).2.urls = s.urls := by
  obtain ⟨m, f⟩ := s
  cases wr with
  | none => cases f <;> rfl
  | some w =>
    obtain ⟨e, left⟩ := w
    cases left <;> rfl

theorem save_file_urls_irrelevant (s : URLStore) (m : Finmap (fun _ : String => String))
    (key url : String) (wr : Option WriteFailure) :
    (URLStore.save { s with urls := m } key url wr).2.file = (s.save key url wr).2.file := by
  obtain ⟨m0, f⟩ := s
  cases wr with
  | none => cases f <;> rfl
  | some w =>
    obtain ⟨e, left⟩ := w
    cases left <;> rfl

/-- A call of `Put` returns exactly when it has fuel for one iteration and the
candidate `genKey (Count ())` is absent; it then returns that candidate. -/
theorem Put_eq_some_iff (genKey : Nat → String) (wr : Option WriteFailure) (fuel : Nat)
    (s : URLStore) (url : String) (k : String) (s1 : URLStore) :
    Put genKey wr fuel s url = some (k, s1) ↔
      fuel ≠ 0 ∧ genKey s.Count ∉ s.urls ∧ k = genKey s.Count ∧
        s1 = (URLStore.save { s with urls := s.urls.insert (genKey s.Count) url }
                (genKey s.Count) url wr).2 := by
  induction fuel with
  | zero => simp [Put]
  | succ n ih =>
    by_cases h : genKey s.Count ∈ s.urls
    · have hs := Set_of_mem url h
      simp only [Put, hs]
      rw [ih]
      simp [h]
    · have hs := Set_of_not_mem url h
      simp only [Put, hs]
      simp only [Option.some.injEq, Prod.mk.injEq]
      constructor
      · rintro ⟨rfl, rfl⟩
        exact ⟨Nat.succ_ne_zero n, h, rfl, rfl⟩
      · rintro ⟨-, -, rfl, rfl⟩
        exact ⟨rfl, rfl⟩

theorem Put_eq_none_of_mem (genKey : Nat → String) (wr : Option WriteFailure) (fuel : Nat)
    (s : URLStore) (url : String) (h : genKey s.Count ∈ s.urls) :
    Put genKey wr fuel s url = none := by
  induction fuel with
  | zero => rfl
  | succ n ih => simp only [Put, Set_of_mem url h]; exact ih

theorem Put_urls {genKey : Nat → String} {wr : Option WriteFailure} {fuel : Nat}
    {s : URLStore} {url k : String} {s1 : URLStore}
    (h : Put genKey wr fuel s url = some (k, s1)) :
    k ∉ s.urls ∧ s1.urls = s.urls.insert k url := by
  obtain ⟨-, hk, rfl, rfl⟩ := (Put_eq_some_iff genKey wr fuel s url k s1).mp h
  exact ⟨hk, by rw [save_urls]⟩

/-- Unfolding of `PutSeq` on a non-empty sequence of calls that return. -/
theorem PutSeq_cons_eq_some {genKey : Nat → String} {s s2 : URLStore} {url : String}
    {fuel : Nat} {wr : Option WriteFailure} {rest : List (String × Nat × Option WriteFailure)}
    {ks : List String} (h : PutSeq genKey s ((url, fuel, wr) :: rest) = some (ks, s2)) :
    ∃ k s1 ks1, Put genKey wr fuel s url = some (k, s1) ∧
      PutSeq genKey s1 rest = some (ks1, s2) ∧ ks = k :: ks1 := by
  simp only [PutSeq] at h
  cases hp : Put genKey wr fuel s url with
  | none => simp [hp] at h
  | some p =>
    obtain ⟨k, s1⟩ := p
    cases hq : PutSeq genKey s1 rest with
    | none => simp [hp, hq] at h
    | some q =>
      obtain ⟨ks1, s3⟩ := q
      simp only [hp, hq, Option.some.injEq, Prod.mk.injEq] at h
      obtain ⟨rfl, rfl⟩ := h
      refine ⟨k, s1, ks1, ?_, ?_, rfl⟩ <;> first | rfl | assumption

/-- The keys returned by a sequence of `Put` calls are pairwise distinct, were
absent at the start and are present at the end; keys present at the start stay. -/
theorem PutSeq_keys_fresh (genKey : Nat → String) :
    ∀ (calls : List (String × Nat × Option WriteFailure)) (s s2 : URLStore) (ks : List String),
      PutSeq genKey s calls = some (ks, s2) →
        ks.Nodup ∧ (∀ k ∈ ks, k ∉ s.urls ∧ k ∈ s2.urls) ∧ (∀ k ∈ s.urls, k ∈ s2.urls) := by
  intro calls
  induction calls with
  | nil =>
    intro s s2 ks h
    simp only [PutSeq, Option.some.injEq, Prod.mk.injEq] at h
    obtain ⟨rfl, rfl⟩ := h
    simp
  | cons c rest ih =>
    intro s s2 ks h
    obtain ⟨url, fuel, wr⟩ := c
    obtain ⟨k, s1, ks1, hp, hq, rfl⟩ := PutSeq_cons_eq_some h
    obtain ⟨hnd, hfresh, hmono⟩ := ih s1 s2 ks1 hq
    obtain ⟨hk, hu⟩ := Put_urls hp
    have hk1 : k ∈ s1.urls := by rw [hu]; exact Finmap.mem_insert.mpr (Or.inl rfl)
    have hsub : ∀ a ∈ s.urls, a ∈ s1.urls := by
      intro a ha; rw [hu]; exact Finmap.mem_insert.mpr (Or.inr ha)
    refine ⟨List.nodup_cons.mpr ⟨fun hmem => (hfresh k hmem).1 hk1, hnd⟩, ?_, ?_⟩
    · intro a ha
      rcases List.mem_cons.mp ha with rfl | ha
      · exact ⟨hk, hmono _ hk1⟩
      · exact ⟨fun hs => (hfresh a ha).1 (hsub a hs), (hfresh a ha).2⟩
    · intro a ha
      exact hmono a (hsub a ha)

/-! ## `Count` along the operations -/

theorem Set_Count_le (s : URLStore) (key url : String) : s.Count ≤ (s.Set key url).2.Count := by
  by_cases h : key ∈ s.urls
  · rw [Set_of_mem url h]
  · rw [Set_of_not_mem url h]
    simp only [URLStore.Count]
    rw [card_insert_of_not_mem url h]
    exact Nat.le_succ _

theorem loadLoop_Count_le :
    ∀ (l : List (Except error record)) (s : URLStore), s.Count ≤ (loadLoop s l).2.Count := by
  intro l
  induction l with
  | nil => intro s; exact Nat.le_refl _
  | cons x rest ih =>
    intro s
    cases x with
    | error e => exact Nat.le_refl _
    | ok r =>
      simp only [loadLoop]
      exact Nat.le_trans (Set_Count_le s r.Key r.URL) (ih _)

theorem load_snd (s : URLStore) (seek : Option error) :
    (s.load seek).2 = match seek with
      | some _ => s
      | none => (loadLoop s s.file).2 := by
  cases seek with
  | some e => rfl
  | none =>
    simp only [URLStore.load]
    split <;> rfl

theorem load_Count_le (s : URLStore) (seek : Option error) : s.Count ≤ (s.load seek).2.Count := by
  rw [load_snd]
  cases seek with
  | some e => exact Nat.le_refl _
  | none => exact loadLoop_Count_le s.file s

theorem Put_Count {genKey : Nat → String} {wr : Option WriteFailure} {fuel : Nat}
    {s : URLStore} {url k : String} {s1 : URLStore}
    (h : Put genKey wr fuel s url = some (k, s1)) : s1.Count = s.Count + 1 := by
  obtain ⟨hk, hu⟩ := Put_urls h
  simp only [URLStore.Count]
  rw [hu, card_insert_of_not_mem url hk]

/-! ## Replaying a log -/

theorem setAll_nil (s : URLStore) : setAll s [] = s := rfl

theorem setAll_cons (s : URLStore) (r : record) (rs : List record) :
    setAll s (r :: rs) = setAll (s.Set r.Key r.URL).2 rs := rfl

theorem setAll_file (rs : List record) : ∀ s : URLStore, (setAll s rs).file = s.file := by
  induction rs with
  | nil => intro s; rfl
  | cons r rs ih => intro s; rw [setAll_cons, ih, Set_file]

theorem Set_lookup (s : URLStore) (key url k : String) :
    (s.Set key url).2.urls.lookup k =
      match s.urls.lookup k with
      | some v => some v
      | none => if key = k then some url else none := by
  by_cases h : key ∈ s.urls
  · rw [Set_of_mem url h]
    cases hk : s.urls.lookup k with
    | some v => rfl
    | none =>
      have hne : key ≠ k := by
        rintro rfl
        exact (Finmap.lookup_eq_none.mp hk) h
      simp [hne]
  · rw [Set_of_not_mem url h]
    by_cases hk : key = k
    · subst hk
      simp [Finmap.lookup_insert, Finmap.lookup_eq_none.mpr h]
    · rw [Finmap.lookup_insert_of_ne _ (Ne.symm hk)]
      cases s.urls.lookup k <;> simp [hk]

/-- First record wins: after replaying `rs`, a key bound before keeps its value,
and any other key is bound to the URL of the first record of `rs` carrying it. -/
theorem setAll_lookup (rs : List record) : ∀ (s : URLStore) (k : String),
    (setAll s rs).urls.lookup k =
      match s.urls.lookup k with
      | some v => some v
      | none => (rs.find? (fun r => decide (r.Key = k))).map record.URL := by
  induction rs with
  | nil => intro s k; rw [setAll_nil]; cases s.urls.lookup k <;> rfl
  | cons r rs ih =>
    intro s k
    rw [setAll_cons, ih, Set_lookup]
    cases s.urls.lookup k with
    | some v => rfl
    | none =>
      by_cases hk : r.Key = k
      · simp [hk]
      · simp [hk]

theorem loadLoop_map_ok (rs : List record) : ∀ s : URLStore,
    loadLoop s (rs.map Except.ok) = (error.EOF, setAll s rs) := by
  induction rs with
  | nil => intro s; rfl
  | cons r rs ih => intro s; simp only [List.map_cons, loadLoop]; rw [ih, setAll_cons]

theorem loadLoop_map_ok_error (rs : List record) (e : error)
    (rest : List (Except error record)) : ∀ s : URLStore,
    loadLoop s (rs.map Except.ok ++ Except.error e :: rest) = (e, setAll s rs) := by
  induction rs with
  | nil => intro s; rfl
  | cons r rs ih =>
    intro s
    rw [List.map_cons, List.cons_append, setAll_cons, ← ih]
    rfl

theorem mem_setAll_init (rs : List record) (f : List (Except error record)) (k : String) :
    k ∈ (setAll (URLStore.init f) rs).urls ↔ k ∈ rs.map record.Key := by
  rw [← Finmap.lookup_isSome, setAll_lookup]
  have h0 : (URLStore.init f).urls.lookup k = none := Finmap.lookup_empty k
  rw [h0]
  simp only [Option.isSome_map', List.find?_isSome, List.mem_map, decide_eq_true_eq]

/-! ## Bindings made by `Put` -/

theorem Put_lookup {genKey : Nat → String} {wr : Option WriteFailure} {fuel : Nat} {s : URLStore}
    {url k : String} {s1 : URLStore} (h : Put genKey wr fuel s url = some (k, s1)) (a : String) :
    s1.urls.lookup a = if a = k then some url else s.urls.lookup a := by
  obtain ⟨-, hu⟩ := Put_urls h
  rw [hu]
  by_cases ha : a = k
  · subst ha; simp [Finmap.lookup_insert]
  · rw [Finmap.lookup_insert_of_ne _ ha]; simp [ha]

theorem PutSeq_lookup (genKey : Nat → String) :
    ∀ (calls : List (String × Nat × Option WriteFailure)) (s s2 : URLStore) (ks : List String),
      PutSeq genKey s calls = some (ks, s2) →
        ks.length = calls.length ∧
        (∀ k v, s.urls.lookup k = some v → s2.urls.lookup k = some v) ∧
        ∀ p ∈ List.zip ks (calls.map Prod.fst), s2.urls.lookup p.1 = some p.2 := by
  intro calls
  induction calls with
  | nil =>
    intro s s2 ks h
    simp only [PutSeq, Option.some.injEq, Prod.mk.injEq] at h
    obtain ⟨rfl, rfl⟩ := h
    simp
  | cons c rest ih =>
    intro s s2 ks h
    obtain ⟨url, fuel, wr⟩ := c
    obtain ⟨k, s1, ks1, hp, hq, rfl⟩ := PutSeq_cons_eq_some h
    obtain ⟨hlen, hkeep, hzip⟩ := ih s1 s2 ks1 hq
    have hk1 : s1.urls.lookup k = some url := by rw [Put_lookup hp k]; simp
    have hstep : ∀ a v, s.urls.lookup a = some v → s1.urls.lookup a = some v := by
      intro a v ha
      rw [Put_lookup hp a]
      have hne : a ≠ k := by
        rintro rfl
        exact (Put_urls hp).1 (Finmap.mem_of_lookup_eq_some ha)
      simp [hne, ha]
    refine ⟨by simp [hlen], fun a v ha => hkeep a v (hstep a v ha), ?_⟩
    intro p hp2
    simp only [List.map_cons, List.zip_cons_cons, List.mem_cons] at hp2
    rcases hp2 with rfl | hp2
    · exact hkeep k url hk1
    · exact hzip p hp2

theorem NewURLStore_ok_none (f : List (Except error record)) :
    NewURLStore (Except.ok f) none = some (loadLoop (URLStore.init f) f).2 := by
  simp only [NewURLStore, load_snd]
  rfl

/-! ## The log against the map -/

theorem logCount_append_ok (k : String) (f : List (Except error record)) (r : record) :
    logCount k (f ++ [Except.ok r]) = logCount k f + if r.Key = k then 1 else 0 := by
  simp only [logCount, List.countP_append, List.countP_cons, List.countP_nil, Nat.zero_add]
  by_cases h : r.Key = k <;> simp [h]

theorem logCount_append_error (k : String) (f : List (Except error record)) (e : error) :
    logCount k (f ++ [Except.error e]) = logCount k f := by
  simp [logCount, List.countP_append, List.countP_cons]

/-- A failed `save` adds no record to the log. -/
theorem save_failed_logCount (s : URLStore) (key url : String) (w : WriteFailure) (k : String) :
    logCount k (s.save key url (some w)).2.file = logCount k s.file := by
  obtain ⟨e, left⟩ := w
  cases left with
  | none => rfl
  | some e1 => exact logCount_append_error k s.file e1

/-- A `save` leaves the number of records of each key as it was, unless the log
was empty, the write succeeded and the key is the one saved: then the log holds
that one record. -/
theorem save_logCount (s : URLStore) (key url : String) (wr : Option WriteFailure) (k : String) :
    logCount k (s.save key url wr).2.file = logCount k s.file ∨
      (s.file = [] ∧ key = k ∧ logCount k (s.save key url wr).2.file = 1) := by
  cases wr with
  | some w => exact Or.inl (save_failed_logCount s key url w k)
  | none =>
    obtain ⟨m, f⟩ := s
    cases f with
    | nil =>
      by_cases hk : key = k
      · exact Or.inr ⟨rfl, hk, by simp [URLStore.save, logCount, hk]⟩
      · exact Or.inl (by simp [URLStore.save, logCount, hk])
    | cons x rest =>
      exact Or.inl (logCount_append_error k (x :: rest) duplicateType)

/-- The two facts relating log and map carried along a sequence of calls: no
key has two records in the log, and a key absent from the map has no record. -/
theorem run_log_inv (genKey : Nat → String) (c : Call) (s s1 : URLStore)
    (hc : c.exportedOk = true) (h : c.run genKey s = some s1)
    (h1 : ∀ k, logCount k s.file ≤ 1) (h2 : ∀ k, k ∉ s.urls → logCount k s.file = 0) :
    (∀ k, logCount k s1.file ≤ 1) ∧ (∀ k, k ∉ s1.urls → logCount k s1.file = 0) := by
  cases c with
  | Get key =>
    simp only [Call.run, Option.some.injEq] at h
    subst h
    exact ⟨h1, h2⟩
  | Count =>
    simp only [Call.run, Option.some.injEq] at h
    subst h
    exact ⟨h1, h2⟩
  | load seek => simp [Call.exportedOk] at hc
  | Set key url =>
    simp only [Call.run, Option.some.injEq] at h
    subst h
    refine ⟨by simpa [Set_file] using h1, ?_⟩
    intro k hk
    rw [Set_file]
    apply h2
    intro hmem
    apply hk
    by_cases hkey : key ∈ s.urls
    · rw [Set_of_mem url hkey]; exact hmem
    · rw [Set_of_not_mem url hkey]; exact Finmap.mem_insert.mpr (Or.inr hmem)
  | Put url fuel wr =>
    simp only [Call.run, Option.map_eq_some', Prod.exists, exists_eq_right] at h
    obtain ⟨k0, hp⟩ := h
    obtain ⟨hk0, hu⟩ := Put_urls hp
    obtain ⟨-, -, rfl, rfl⟩ := (Put_eq_some_iff genKey wr fuel s url k0 s1).mp hp
    have hmem : ∀ k, k ∈ (s.urls.insert (genKey s.Count) url) ↔ k = genKey s.Count ∨ k ∈ s.urls :=
      fun k => Finmap.mem_insert
    rw [save_urls] at hu
    refine ⟨fun k => ?_, fun k hk => ?_⟩
    · rw [save_file_urls_irrelevant]
      rcases save_logCount s (genKey s.Count) url wr k with e | ⟨-, -, e⟩
      · rw [e]; exact h1 k
      · rw [e]
    · rw [save_urls] at hk
      rw [save_file_urls_irrelevant]
      have hne : ¬ genKey s.Count = k := fun e => hk ((hmem k).mpr (Or.inl e.symm))
      have hns : k ∉ s.urls := fun hm => hk ((hmem k).mpr (Or.inr hm))
      rcases save_logCount s (genKey s.Count) url wr k with e | ⟨-, e, -⟩
      · rw [e]; exact h2 k hns
      · exact absurd e hne

theorem runCalls_log_inv (genKey : Nat → String) :
    ∀ (calls : List Call) (s s1 : URLStore), (∀ c ∈ calls, c.exportedOk = true) →
      runCalls genKey s calls = some s1 →
      (∀ k, logCount k s.file ≤ 1) → (∀ k, k ∉ s.urls → logCount k s.file = 0) →
      (∀ k, logCount k s1.file ≤ 1) ∧ (∀ k, k ∉ s1.urls → logCount k s1.file = 0) := by
  intro calls
  induction calls with
  | nil =>
    intro s s1 _ h h1 h2
    simp only [runCalls, Option.some.injEq] at h
    subst h
    exact ⟨h1, h2⟩
  | cons c rest ih =>
    intro s s1 hc h h1 h2
    simp only [runCalls] at h
    cases hr : c.run genKey s with
    | none => simp [hr] at h
    | some t =>
      simp only [hr] at h
      obtain ⟨t1, t2⟩ := run_log_inv genKey c s t (hc c (List.mem_cons_self _ _)) hr h1 h2
      exact ih t s1 (fun d hd => hc d (List.mem_cons_of_mem _ hd)) h t1 t2

/-! ## Bindings are kept -/

theorem Set_lookup_keep (s : URLStore) (key url : String) {k v : String}
    (h : s.urls.lookup k = some v) : (s.Set key url).2.urls.lookup k = some v := by
  rw [Set_lookup, h]

theorem loadLoop_lookup_keep {k v : String} :
    ∀ (l : List (Except error record)) (s : URLStore), s.urls.lookup k = some v →
      (loadLoop s l).2.urls.lookup k = some v := by
  intro l
  induction l with
  | nil => intro s h; exact h
  | cons x rest ih =>
    intro s h
    cases x with
    | error e => exact h
    | ok r =>
      simp only [loadLoop]
      exact ih _ (Set_lookup_keep s r.Key r.URL h)

theorem load_lookup_keep (s : URLStore) (seek : Option error) {k v : String}
    (h : s.urls.lookup k = some v) : (s.load seek).2.urls.lookup k = some v := by
  rw [load_snd]
  cases seek with
  | some e => exact h
  | none => exact loadLoop_lookup_keep s.file s h

theorem Put_lookup_keep {genKey : Nat → String} {wr : Option WriteFailure} {fuel : Nat} {s : URLStore}
    {url key : String} {s1 : URLStore} (hp : Put genKey wr fuel s url = some (key, s1))
    {k v : String} (h : s.urls.lookup k = some v) : s1.urls.lookup k = some v := by
  rw [Put_lookup hp k]
  have hne : k ≠ key := by
    rintro rfl
    exact (Put_urls hp).1 (Finmap.mem_of_lookup_eq_some h)
  simp [hne, h]

theorem loadLoop_fst : ∀ (l : List (Except error record)) (s : URLStore),
    (loadLoop s l).1 = firstDecodeFailure l := by
  intro l
  induction l with
  | nil => intro s; rfl
  | cons x rest ih =>
    intro s
    cases x with
    | error e => rfl
    | ok r => simp only [loadLoop, firstDecodeFailure]; exact ih _

theorem load_fst_none (s : URLStore) :
    (s.load none).1 =
      if firstDecodeFailure s.file = error.EOF then none else some (firstDecodeFailure s.file) := by
  have h := loadLoop_fst s.file s
  simp only [URLStore.load]
  rw [← h]
  split <;> rfl

/-! ## `Put` on a store filled by `Put` alone -/

theorem Count_of_keys_eq {genKey : Nat → String} (hinj : Function.Injective genKey)
    {s : URLStore} {m : Nat} (h : s.urls.keys = (Finset.range m).image genKey) :
    s.Count = m ∧ genKey m ∉ s.urls := by
  constructor
  · simp only [URLStore.Count]
    rw [h, Finset.card_image_of_injective _ hinj, Finset.card_range]
  · rw [← Finmap.mem_keys, h]
    simp only [Finset.mem_image, Finset.mem_range, not_exists, not_and]
    intro a ha e
    exact absurd (hinj e) (Nat.ne_of_lt ha)

theorem PutSeq_injective_from {genKey : Nat → String} (hinj : Function.Injective genKey) :
    ∀ (calls : List (String × Option WriteFailure)) (s : URLStore) (m : Nat),
      s.urls.keys = (Finset.range m).image genKey →
      ∃ s1, PutSeq genKey s (calls.map (fun c => (c.1, 1, c.2)))
          = some ((List.range' m calls.length).map genKey, s1) ∧
        s1.urls.keys = (Finset.range (m + calls.length)).image genKey := by
  intro calls
  induction calls with
  | nil => intro s m h; exact ⟨s, rfl, h⟩
  | cons c rest ih =>
    intro s m h
    obtain ⟨hcount, hfresh⟩ := Count_of_keys_eq hinj h
    rw [← hcount] at hfresh
    have hp : Put genKey c.2 1 s c.1 = some (genKey m,
        (URLStore.save { s with urls := s.urls.insert (genKey s.Count) c.1 }
          (genKey s.Count) c.1 c.2).2) := by
      rw [Put_eq_some_iff]
      exact ⟨Nat.one_ne_zero, hfresh, by rw [hcount], rfl⟩
    have hkeys : (URLStore.save { s with urls := s.urls.insert (genKey s.Count) c.1 }
          (genKey s.Count) c.1 c.2).2.urls.keys = (Finset.range (m + 1)).image genKey := by
      rw [save_urls, keys_insert_of_not_mem, h, hcount, Finset.range_succ, Finset.image_insert]
    obtain ⟨s1, hs1, hk1⟩ := ih _ (m + 1) hkeys
    refine ⟨s1, ?_, ?_⟩
    · simp only [List.map_cons, PutSeq, hp, hs1, List.length_cons, List.range'_succ]
    · rw [hk1, List.length_cons]
      congr 2
      omega

/-! ## Interleaved calls of `Put` -/

theorem step_url (genKey : Nat → String) (s : URLStore) (c : PutCall) :
    (c.step genKey s).2.url = c.url ∧ (c.step genKey s).2.wr = c.wr := by
  obtain ⟨url, wr, pc⟩ := c
  cases pc with
  | atCount => exact ⟨rfl, rfl⟩
  | atSet key => by_cases h : key ∈ s.urls <;> simp [PutCall.step, URLStore.Set, h]
  | atSave key => exact ⟨rfl, rfl⟩
  | returned key => exact ⟨rfl, rfl⟩

theorem step_lookup_keep (genKey : Nat → String) (s : URLStore) (c : PutCall) {k v : String}
    (h : s.urls.lookup k = some v) : (c.step genKey s).1.urls.lookup k = some v := by
  unfold PutCall.step
  cases c.pc with
  | atCount => exact h
  | atSet key =>
    have hs := Set_lookup_keep s key c.url h
    by_cases hm : key ∈ s.urls
    · simp only [Set_of_mem c.url hm]; exact h
    · simp only [Set_of_not_mem c.url hm] at hs ⊢; exact hs
  | atSave key => simp only [save_urls]; exact h
  | returned key => exact h

/-- A call that holds a key after a step either held it before the step, or the
key was absent before the step and the step bound it to the argument of the call. -/
theorem step_key (genKey : Nat → String) (s : URLStore) (c : PutCall) {k : String}
    (h : (c.step genKey s).2.key? = some k) :
    c.key? = some k ∨ (k ∉ s.urls ∧ (c.step genKey s).1.urls.lookup k = some c.url) := by
  unfold PutCall.step at h ⊢
  unfold PutCall.key? at h ⊢
  cases hpc : c.pc with
  | atCount => simp [hpc] at h
  | atSet key =>
    by_cases hm : key ∈ s.urls
    · simp [hpc, Set_of_mem c.url hm] at h
    · simp only [hpc, Set_of_not_mem c.url hm, Option.some.injEq] at h ⊢
      subst h
      exact Or.inr ⟨hm, Finmap.lookup_insert _⟩
  | atSave key =>
    simp only [hpc, Option.some.injEq] at h ⊢
    exact Or.inl h
  | returned key =>
    simp only [hpc, Option.some.injEq] at h ⊢
    exact Or.inl h

theorem stepCall_of_none {genKey : Nat → String} {st : URLStore × List PutCall} {i : Nat}
    (h : st.2[i]? = none) : stepCall genKey st i = st := by
  simp only [stepCall, h]

theorem stepCall_of_some {genKey : Nat → String} {st : URLStore × List PutCall} {i : Nat}
    {c : PutCall} (h : st.2[i]? = some c) :
    stepCall genKey st i = ((c.step genKey st.1).1, st.2.set i (c.step genKey st.1).2) := by
  simp only [stepCall, h]

theorem getElem?_set_cases {l : List PutCall} {i j : Nat} {c c1 d : PutCall}
    (hi : l[i]? = some c) (hj : (l.set i c1)[j]? = some d) :
    (j = i ∧ d = c1) ∨ (j ≠ i ∧ l[j]? = some d) := by
  by_cases e : i = j
  · subst e
    have hlt : i < l.length := by
      by_contra hge
      rw [List.getElem?_eq_none (Nat.le_of_not_lt hge)] at hi
      cases hi
    rw [List.getElem?_set_self hlt] at hj
    exact Or.inl ⟨rfl, (Option.some.inj hj).symm⟩
  · rw [List.getElem?_set_ne e] at hj
    exact Or.inr ⟨fun h => e h.symm, hj⟩

/-- The two facts carried along an interleaving: a call that has inserted a key
finds its argument under that key, and no two calls have inserted the same key. -/
theorem stepCall_inv (genKey : Nat → String) (st : URLStore × List PutCall) (i : Nat)
    (hA : ∀ (j : Nat) (c : PutCall) (k : String), st.2[j]? = some c → c.key? = some k → st.1.urls.lookup k = some c.url)
    (hB : ∀ (j1 j2 : Nat) (c1 c2 : PutCall) (k : String), st.2[j1]? = some c1 → st.2[j2]? = some c2 →
      c1.key? = some k → c2.key? = some k → j1 = j2) :
    (∀ (j : Nat) (c : PutCall) (k : String), (stepCall genKey st i).2[j]? = some c → c.key? = some k →
        (stepCall genKey st i).1.urls.lookup k = some c.url) ∧
      (∀ (j1 j2 : Nat) (c1 c2 : PutCall) (k : String), (stepCall genKey st i).2[j1]? = some c1 →
        (stepCall genKey st i).2[j2]? = some c2 →
        c1.key? = some k → c2.key? = some k → j1 = j2) := by
  cases hi : st.2[i]? with
  | none => rw [stepCall_of_none hi]; exact ⟨hA, hB⟩
  | some c =>
    rw [stepCall_of_some hi]
    have hnew : ∀ k, (c.step genKey st.1).2.key? = some k →
        (c.step genKey st.1).1.urls.lookup k = some c.url ∧
          ∀ j d, j ≠ i → st.2[j]? = some d → d.key? ≠ some k := by
      intro k hk
      rcases step_key genKey st.1 c hk with hold | ⟨hfresh, hl⟩
      · refine ⟨step_lookup_keep genKey st.1 c (hA i c k hi hold), fun j d hne hj hd => ?_⟩
        exact hne (hB j i d c k hj hi hd hold)
      · refine ⟨hl, fun j d _ hj hd => ?_⟩
        exact hfresh (Finmap.mem_of_lookup_eq_some (hA j d k hj hd))
    constructor
    · intro j d k hj hd
      rcases getElem?_set_cases hi hj with ⟨-, rfl⟩ | ⟨-, hj2⟩
      · rw [(step_url genKey st.1 c).1]
        exact (hnew k hd).1
      · exact step_lookup_keep genKey st.1 c (hA j d k hj2 hd)
    · intro j1 j2 d1 d2 k h1 h2 hd1 hd2
      rcases getElem?_set_cases hi h1 with ⟨e1, rfl⟩ | ⟨e1, h1b⟩
      · rcases getElem?_set_cases hi h2 with ⟨e2, rfl⟩ | ⟨e2, h2b⟩
        · rw [e1, e2]
        · exact absurd hd2 ((hnew k hd1).2 j2 d2 e2 h2b)
      · rcases getElem?_set_cases hi h2 with ⟨e2, rfl⟩ | ⟨e2, h2b⟩
        · exact absurd hd1 ((hnew k hd2).2 j1 d1 e1 h1b)
        · exact hB j1 j2 d1 d2 k h1b h2b hd1 hd2

theorem stepCall_urls (genKey : Nat → String) (st : URLStore × List PutCall) (i : Nat) :
    (stepCall genKey st i).2.map PutCall.url = st.2.map PutCall.url ∧
      (stepCall genKey st i).2.map PutCall.wr = st.2.map PutCall.wr := by
  cases hi : st.2[i]? with
  | none => rw [stepCall_of_none hi]; exact ⟨rfl, rfl⟩
  | some c =>
    rw [stepCall_of_some hi]
    have hc : st.2.map PutCall.url = (st.2.map PutCall.url).set i c.url := by
      apply List.ext_getElem? ; intro j
      by_cases e : i = j
      · subst e
        rw [List.getElem?_set, List.getElem?_map, hi]
        simp only [List.length_map, Option.map_some', if_true]
        have hlt : i < st.2.length := by
          by_contra hge
          rw [List.getElem?_eq_none (Nat.le_of_not_lt hge)] at hi
          cases hi
        simp [hlt]
      · rw [List.getElem?_set_ne e]
    have hw : st.2.map PutCall.wr = (st.2.map PutCall.wr).set i c.wr := by
      apply List.ext_getElem? ; intro j
      by_cases e : i = j
      · subst e
        rw [List.getElem?_set, List.getElem?_map, hi]
        simp only [List.length_map, Option.map_some', if_true]
        have hlt : i < st.2.length := by
          by_contra hge
          rw [List.getElem?_eq_none (Nat.le_of_not_lt hge)] at hi
          cases hi
        simp [hlt]
      · rw [List.getElem?_set_ne e]
    simp only [List.map_set, (step_url genKey st.1 c).1, (step_url genKey st.1 c).2]
    exact ⟨hc.symm, hw.symm⟩

theorem runSchedule_inv (genKey : Nat → String) :
    ∀ (sched : List Nat) (st : URLStore × List PutCall),
      (∀ (j : Nat) (c : PutCall) (k : String), st.2[j]? = some c → c.key? = some k → st.1.urls.lookup k = some c.url) →
      (∀ (j1 j2 : Nat) (c1 c2 : PutCall) (k : String), st.2[j1]? = some c1 → st.2[j2]? = some c2 →
        c1.key? = some k → c2.key? = some k → j1 = j2) →
      ((runSchedule genKey st sched).2.map PutCall.url = st.2.map PutCall.url ∧
        (runSchedule genKey st sched).2.map PutCall.wr = st.2.map PutCall.wr) ∧
      (∀ (j : Nat) (c : PutCall) (k : String), (runSchedule genKey st sched).2[j]? = some c → c.key? = some k →
        (runSchedule genKey st sched).1.urls.lookup k = some c.url) ∧
      (∀ (j1 j2 : Nat) (c1 c2 : PutCall) (k : String), (runSchedule genKey st sched).2[j1]? = some c1 →
        (runSchedule genKey st sched).2[j2]? = some c2 →
        c1.key? = some k → c2.key? = some k → j1 = j2) := by
  intro sched
  induction sched with
  | nil => intro st hA hB; exact ⟨⟨rfl, rfl⟩, hA, hB⟩
  | cons i rest ih =>
    intro st hA hB
    obtain ⟨hA1, hB1⟩ := stepCall_inv genKey st i hA hB
    obtain ⟨⟨hu, hw⟩, hA2, hB2⟩ := ih (stepCall genKey st i) hA1 hB1
    simp only [runSchedule]
    exact ⟨⟨hu.trans (stepCall_urls genKey st i).1, hw.trans (stepCall_urls genKey st i).2⟩,
      hA2, hB2⟩

/-- A call of `Put` running alone for its three steps does what `Put` does in one iteration. -/
theorem runSchedule_alone_eq_Put (genKey : Nat → String) (s : URLStore) (url : String)
    (wr : Option WriteFailure) (h : genKey s.Count ∉ s.urls) :
    ∃ s1, Put genKey wr 1 s url = some (genKey s.Count, s1) ∧
      runSchedule genKey (s, [⟨url, wr, PutPc.atCount⟩]) [0, 0, 0]
        = (s1, [⟨url, wr, PutPc.returned (genKey s.Count)⟩]) := by
  refine ⟨_, (Put_eq_some_iff genKey wr 1 s url _ _).mpr ⟨Nat.one_ne_zero, h, rfl, rfl⟩, ?_⟩
  simp [runSchedule, stepCall, PutCall.step, Set_of_not_mem url h]

/-! ## Inserts and saves under interleaved calls of `Put` -/

theorem filterMap_cons_toList (f : PutCall → Option record) (x : PutCall) (xs : List PutCall) :
    (x :: xs).filterMap f = (f x).toList ++ xs.filterMap f := by
  cases h : f x <;> simp [List.filterMap_cons, h]

theorem filterMap_set_perm (f : PutCall → Option record) :
    ∀ (l : List PutCall) (i : Nat) (c c1 : PutCall), l[i]? = some c →
      ((f c).toList ++ (l.set i c1).filterMap f).Perm ((f c1).toList ++ l.filterMap f) := by
  intro l
  induction l with
  | nil => intro i c c1 h; simp at h
  | cons x xs ih =>
    intro i c c1 h
    cases i with
    | zero =>
      simp only [List.getElem?_cons_zero, Option.some.injEq] at h
      subst h
      rw [List.set_cons_zero, filterMap_cons_toList, filterMap_cons_toList]
      rw [List.perm_iff_count]
      intro r
      simp only [List.count_append]
      omega
    | succ j =>
      simp only [List.getElem?_cons_succ] at h
      have hp := ih j c c1 h
      rw [List.set_cons_succ, filterMap_cons_toList, filterMap_cons_toList]
      rw [List.perm_iff_count] at hp ⊢
      intro r
      have := hp r
      simp only [List.count_append] at this ⊢
      omega

/-- After a step, a call has a record yet to save exactly when the step inserted it. -/
theorem step_pending (genKey : Nat → String) (s : URLStore) (c : PutCall) :
    (c.step genKey s).2.pending = c.inserts s := by
  obtain ⟨url, wr, pc⟩ := c
  cases pc with
  | atCount => rfl
  | atSet key =>
    by_cases h : key ∈ s.urls <;>
      simp [PutCall.step, URLStore.Set, PutCall.pending, PutCall.inserts, h]
  | atSave key => rfl
  | returned key => rfl

theorem stepCall_trace (genKey : Nat → String) (st : URLStore × List PutCall) (i : Nat) :
    ((match st.2[i]? with
        | none => []
        | some c => c.pending.toList) ++
      (stepCall genKey st i).2.filterMap PutCall.pending).Perm
        (st.2.filterMap PutCall.pending ++
          (match st.2[i]? with
            | none => []
            | some c => (c.inserts st.1).toList)) := by
  cases hi : st.2[i]? with
  | none =>
    rw [stepCall_of_none hi]
    simp
  | some c =>
    rw [stepCall_of_some hi]
    have hp := filterMap_set_perm PutCall.pending st.2 i c (c.step genKey st.1).2 hi
    rw [step_pending] at hp
    rw [List.perm_iff_count] at hp ⊢
    intro r
    have h1 := hp r
    simp only [List.count_append] at h1 ⊢
    omega

/-- Along an interleaving, the pairs saved so far together with the pairs yet
to be saved are, up to order, the pairs that were to be saved at the start
together with the pairs inserted so far. -/
theorem runSchedule_trace (genKey : Nat → String) :
    ∀ (sched : List Nat) (st : URLStore × List PutCall),
      (saveTrace genKey st sched ++
        (runSchedule genKey st sched).2.filterMap PutCall.pending).Perm
          (st.2.filterMap PutCall.pending ++ insertTrace genKey st sched) := by
  intro sched
  induction sched with
  | nil => intro st; simp [runSchedule, insertTrace, saveTrace]
  | cons i rest ih =>
    intro st
    have ha := stepCall_trace genKey st i
    have hr := ih (stepCall genKey st i)
    simp only [runSchedule, insertTrace, saveTrace]
    rw [List.perm_iff_count] at ha hr ⊢
    intro r
    have h1 := ha r
    have h2 := hr r
    simp only [List.count_append] at h1 h2 ⊢
    omega

theorem filterMap_pending_of_returned (l : List PutCall)
    (h : ∀ c ∈ l, ∃ k, c.pc = PutPc.returned k) : l.filterMap PutCall.pending = [] := by
  induction l with
  | nil => rfl
  | cons x xs ih =>
    obtain ⟨k, hk⟩ := h x (List.mem_cons_self _ _)
    rw [filterMap_cons_toList, ih (fun c hc => h c (List.mem_cons_of_mem _ hc))]
    simp [PutCall.pending, hk]

theorem filterMap_pending_of_atCount (l : List PutCall)
    (h : ∀ c ∈ l, c.pc = PutPc.atCount) : l.filterMap PutCall.pending = [] := by
  induction l with
  | nil => rfl
  | cons x xs ih =>
    have hk := h x (List.mem_cons_self _ _)
    rw [filterMap_cons_toList, ih (fun c hc => h c (List.mem_cons_of_mem _ hc))]
    simp [PutCall.pending, hk]

/-! ## Claims -/

/-- C1: round trip in memory.  For every store, key generator and value, when
`Put` returns key `k`, then right afterwards `Get k` is the value, and `k` is
present in the map (bound to the value). -/
theorem Put_then_Get (genKey : Nat → String) (wr : Option WriteFailure) (fuel : Nat)
    (s : URLStore) (v k : String) (s1 : URLStore)
    (h : Put genKey wr fuel s v = some (k, s1)) :
    s1.Get k = v ∧ k ∈ s1.urls ∧ s1.urls.lookup k = some v := by
  obtain ⟨-, hu⟩ := Put_urls h
  have hl : s1.urls.lookup k = some v := by rw [hu, Finmap.lookup_insert]
  exact ⟨Get_eq_of_lookup hl, Finmap.mem_of_lookup_eq_some hl, hl⟩

theorem Put_then_Get_witness :
    Put (fun n => toString n) none 1 (URLStore.init []) "http://example.com"
        = some ("0", ((URLStore.init []).Set "0" "http://example.com").2.save
            "0" "http://example.com" none |>.2) ∧
      (((URLStore.init []).Set "0" "http://example.com").2.save
            "0" "http://example.com" none |>.2).Get "0" = "http://example.com" :=
  have h : Put (fun n => toString n) none 1 (URLStore.init []) "http://example.com"
        = some ("0", ((URLStore.init []).Set "0" "http://example.com").2.save
            "0" "http://example.com" none |>.2) := rfl
  ⟨h, (Put_then_Get _ none 1 _ _ _ _ h).1⟩

/-- C2: uniqueness.  For every starting store, key generator and finite sequence
of `Put` calls that all return, the returned keys are pairwise distinct and
none of them was a key of the map before the sequence began. -/
theorem PutSeq_keys_unique (genKey : Nat → String) (s s2 : URLStore)
    (calls : List (String × Nat × Option WriteFailure)) (ks : List String)
    (h : PutSeq genKey s calls = some (ks, s2)) :
    ks.Pairwise (fun a b => a ≠ b) ∧ ∀ k ∈ ks, k ∉ s.urls := by
  obtain ⟨hnd, hfresh, -⟩ := PutSeq_keys_fresh genKey calls s s2 ks h
  exact ⟨hnd, fun k hk => (hfresh k hk).1⟩

theorem PutSeq_keys_unique_witness :
    (PutSeq (fun n => toString n) ((URLStore.init []).Set "7" "x").2
        [("a", 1, none), ("b", 2, some ⟨error.other "disk full", none⟩), ("c", 1, none)]).isSome = true ∧
      ["1", "2", "3"].Pairwise (fun a b => a ≠ b) ∧
      ∀ k ∈ ["1", "2", "3"], k ∉ ((URLStore.init []).Set "7" "x").2.urls :=
  ⟨rfl, PutSeq_keys_unique (fun n => toString n) ((URLStore.init []).Set "7" "x").2 _
    [("a", 1, none), ("b", 2, some ⟨error.other "disk full", none⟩), ("c", 1, none)]
    ["1", "2", "3"] rfl⟩

/-- C3: no overwrite.  When key `k` maps to `v1`, `Set k v2` returns false and
leaves the store unchanged: `Get k` is still `v1` and `Count` is unchanged. -/
theorem Set_present_no_overwrite (s : URLStore) (k v1 v2 : String)
    (h : s.urls.lookup k = some v1) :
    (s.Set k v2).1 = false ∧ (s.Set k v2).2 = s ∧ (s.Set k v2).2.urls = s.urls ∧
      (s.Set k v2).2.Get k = v1 ∧ (s.Set k v2).2.Count = s.Count := by
  rw [Set_of_mem v2 (Finmap.mem_of_lookup_eq_some h)]
  exact ⟨rfl, rfl, rfl, Get_eq_of_lookup h, rfl⟩

theorem Set_present_no_overwrite_witness :
    (((URLStore.init []).Set "k" "v1").2.Set "k" "v2").1 = false ∧
      (((URLStore.init []).Set "k" "v1").2.Set "k" "v2").2.Get "k" = "v1" :=
  have h := Set_present_no_overwrite ((URLStore.init []).Set "k" "v1").2 "k" "v1" "v2" rfl
  ⟨h.1, h.2.2.2.1⟩

/-- C4, as the code has it: `Get` returns only a string, the stored value for a
present key and the empty string for an absent one; so its result on an absent
key differs from its result on a present key exactly when the value stored
under the present key is not the empty string. -/
theorem Get_value_or_empty (s : URLStore) (k : String) :
    s.Get k = (s.urls.lookup k).getD "" ∧
      (k ∉ s.urls → s.Get k = "") ∧
      ∀ k2 v, s.urls.lookup k2 = some v → k ∉ s.urls → (s.Get k ≠ s.Get k2 ↔ v ≠ "") := by
  refine ⟨?_, fun h => Get_of_not_mem h, ?_⟩
  · unfold URLStore.Get
    cases s.urls.lookup k <;> rfl
  · intro k2 v h2 hk
    rw [Get_of_not_mem hk, Get_eq_of_lookup h2]
    exact ⟨fun h e => h e.symm, fun h e => h e.symm⟩

theorem Get_value_or_empty_witness :
    ((URLStore.init []).Set "a" "x").2.Get "b" ≠ ((URLStore.init []).Set "a" "x").2.Get "a" :=
  (((Get_value_or_empty ((URLStore.init []).Set "a" "x").2 "b").2.2 "a" "x" rfl
    (by decide)).mpr (by decide))

/-- C4 as stated fails: in the store holding only `"a"` with the empty string
as value, `"b"` is absent and `"a"` is present, yet `Get` returns the same
result for both. -/
theorem Get_absent_eq_present_empty :
    "b" ∉ ((URLStore.init []).Set "a" "").2.urls ∧
      "a" ∈ ((URLStore.init []).Set "a" "").2.urls ∧
      ((URLStore.init []).Set "a" "").2.Get "b" = ((URLStore.init []).Set "a" "").2.Get "a" := by
  decide

/-- C5: `Put` loops forever on a deterministic collision.  In every store in
which the candidate `genKey (Count ())` is already a key, an iteration of the
loop of `Put` fails its `Set` and leaves the store as it was (hence the same
`Count` and the same candidate), and `Put` does not return within any number of
iterations.  Such a store is obtained by `Set (genKey 1) x` on an empty store
and by `NewURLStore` on a log whose only record has key `genKey 1`. -/
theorem Put_collision_never_returns (genKey : Nat → String) :
    (∀ s : URLStore, genKey s.Count ∈ s.urls → ∀ (url : String) (wr : Option WriteFailure),
        s.Set (genKey s.Count) url = (false, s) ∧
        (∀ fuel, Put genKey wr (fuel + 1) s url = Put genKey wr fuel s url) ∧
        ∀ fuel, Put genKey wr fuel s url = none) ∧
      (∀ (x : String) (f : List (Except error record)),
        genKey ((URLStore.init f).Set (genKey 1) x).2.Count
          ∈ ((URLStore.init f).Set (genKey 1) x).2.urls) ∧
      (∀ x : String, ∃ s, NewURLStore (Except.ok [Except.ok ⟨genKey 1, x⟩]) none = some s ∧
        genKey s.Count ∈ s.urls) := by
  have hset : ∀ (x : String) (f : List (Except error record)),
      ((URLStore.init f).Set (genKey 1) x).2.Count = 1 ∧
        genKey 1 ∈ ((URLStore.init f).Set (genKey 1) x).2.urls := by
    intro x f
    have hn : genKey 1 ∉ (URLStore.init f).urls := Finmap.not_mem_empty
    rw [Set_of_not_mem x hn]
    refine ⟨?_, Finmap.mem_insert.mpr (Or.inl rfl)⟩
    simp only [URLStore.Count]
    rw [card_insert_of_not_mem x hn]
    rfl
  refine ⟨?_, ?_, ?_⟩
  · intro s h url wr
    refine ⟨Set_of_mem url h, fun fuel => ?_, fun fuel => Put_eq_none_of_mem genKey wr fuel s url h⟩
    rw [Put_eq_none_of_mem genKey wr (fuel + 1) s url h, Put_eq_none_of_mem genKey wr fuel s url h]
  · intro x f
    rw [(hset x f).1]
    exact (hset x f).2
  · intro x
    refine ⟨_, rfl, ?_⟩
    have h := hset x [Except.ok ⟨genKey 1, x⟩]
    have e : ((URLStore.init [Except.ok ⟨genKey 1, x⟩]).load none).2
        = ((URLStore.init [Except.ok ⟨genKey 1, x⟩]).Set (genKey 1) x).2 := by
      rw [load_snd]
      rfl
    rw [e, h.1]
    exact h.2

theorem Put_collision_never_returns_witness :
    Put (fun n => toString n) none 1000 ((URLStore.init []).Set "1" "x").2 "http://a" = none :=
  ((Put_collision_never_returns (fun n => toString n)).1 ((URLStore.init []).Set "1" "x").2
    (by decide) "http://a" none).2.2 1000

/-- C6: `Count` monotonicity.  For every store and every call among `Get`,
`Set`, `Count`, `Put` and `load` that returns, `Count` afterwards is at least
`Count` before; and every `Put` that returns increases `Count` by exactly 1. -/
theorem Count_monotone (genKey : Nat → String) (c : Call) (s s1 : URLStore)
    (h : c.run genKey s = some s1) :
    s.Count ≤ s1.Count ∧
      ∀ url fuel wr, c = Call.Put url fuel wr → s1.Count = s.Count + 1 := by
  cases c with
  | Get key =>
    simp only [Call.run, Option.some.injEq] at h
    subst h
    exact ⟨Nat.le_refl _, fun _ _ _ hc => by cases hc⟩
  | Set key url =>
    simp only [Call.run, Option.some.injEq] at h
    subst h
    exact ⟨Set_Count_le s key url, fun _ _ _ hc => by cases hc⟩
  | Count =>
    simp only [Call.run, Option.some.injEq] at h
    subst h
    exact ⟨Nat.le_refl _, fun _ _ _ hc => by cases hc⟩
  | Put url fuel wr =>
    simp only [Call.run, Option.map_eq_some', Prod.exists, exists_eq_right] at h
    obtain ⟨k, hk⟩ := h
    have := Put_Count hk
    exact ⟨by omega, fun _ _ _ _ => this⟩
  | load seek =>
    simp only [Call.run, Option.some.injEq] at h
    subst h
    exact ⟨load_Count_le s seek, fun _ _ _ hc => by cases hc⟩

theorem Count_monotone_witness :
    ((URLStore.init []).Set "5" "x").2.Count = 1 ∧
      (((URLStore.init []).Set "5" "x").2.Set "1" "http://a").2.Count = 2 :=
  ⟨rfl, (Count_monotone (fun n => toString n) (Call.Put "http://a" 1 (some ⟨error.other "disk full", none⟩))
    ((URLStore.init []).Set "5" "x").2 (((URLStore.init []).Set "5" "x").2.Set "1" "http://a").2
    rfl).2 "http://a" 1 (some ⟨error.other "disk full", none⟩) rfl⟩

/-- C7 fails on the code.  Open a store on an empty log, call `Put "http://a"`
and `Put "http://b"` with both appends succeeding, and open a fresh store on
the resulting log.  The two calls return the keys `"0"` and `"1"` and the
closed store answers `Get "1"` with `"http://b"`.  Each `save` sent its own
type definition, so the decoder of `load` decodes the first record and fails
on the second definition: `load` reports that error, and the fresh store has
`Count` 1 and answers `Get "1"` with the empty string. -/
theorem restart_loses_second_Put :
    ∃ s0 s1 s2, NewURLStore (Except.ok []) none = some s0 ∧
      PutSeq (fun n => toString n) s0 [("http://a", 1, none), ("http://b", 1, none)]
        = some (["0", "1"], s1) ∧
      s1.Count = 2 ∧ s1.Get "0" = "http://a" ∧ s1.Get "1" = "http://b" ∧
      s1.file = [Except.ok ⟨"0", "http://a"⟩, Except.error duplicateType] ∧
      NewURLStore (Except.ok s1.file) none = some s2 ∧
      ((URLStore.init s1.file).load none).1 = some duplicateType ∧
      s2.Count = 1 ∧ s2.Get "0" = "http://a" ∧ s2.Get "1" = "" ∧ s2.urls ≠ s1.urls :=
  ⟨_, _, _, rfl, rfl, rfl, rfl, rfl, rfl, rfl, rfl, rfl, rfl, rfl, by decide⟩

/-- C8: recovery replays the log through `Set`, first record wins.  For every
sequence of decoded records, `load` on an empty store reports no error, the map
contains exactly the keys occurring in the sequence, each key is bound to the
URL of the first record carrying it (which `Get` returns), `Count` is the
number of distinct keys, and an empty log gives `Count` 0. -/
theorem load_first_record_wins (rs : List record) :
    ((URLStore.init (rs.map Except.ok)).load none).1 = none ∧
      (∀ k, k ∈ ((URLStore.init (rs.map Except.ok)).load none).2.urls ↔ k ∈ rs.map record.Key) ∧
      (∀ k, ((URLStore.init (rs.map Except.ok)).load none).2.urls.lookup k =
        (rs.find? (fun r => decide (r.Key = k))).map record.URL) ∧
      (∀ k r, rs.find? (fun r => decide (r.Key = k)) = some r →
        ((URLStore.init (rs.map Except.ok)).load none).2.Get k = r.URL) ∧
      ((URLStore.init (rs.map Except.ok)).load none).2.Count = (rs.map record.Key).dedup.length ∧
      ((URLStore.init []).load none).2.Count = 0 := by
  have hload : (URLStore.init (rs.map Except.ok)).load none
      = (none, setAll (URLStore.init (rs.map Except.ok)) rs) := by
    have h := loadLoop_map_ok rs (URLStore.init (rs.map Except.ok))
    have hfile : (URLStore.init (rs.map Except.ok)).file = rs.map Except.ok := rfl
    simp only [URLStore.load, hfile, h, if_true]
  have hl : ∀ k, (setAll (URLStore.init (rs.map Except.ok)) rs).urls.lookup k =
      (rs.find? (fun r => decide (r.Key = k))).map record.URL := by
    intro k
    rw [setAll_lookup]
    have h0 : (URLStore.init (rs.map Except.ok)).urls.lookup k = none := Finmap.lookup_empty k
    rw [h0]
  rw [hload]
  refine ⟨rfl, fun k => mem_setAll_init rs _ k, hl, ?_, ?_, rfl⟩
  · intro k r hr
    apply Get_eq_of_lookup
    rw [hl k, hr]
    rfl
  · simp only [URLStore.Count]
    rw [← List.card_toFinset]
    congr 1
    ext k
    rw [Finmap.mem_keys, mem_setAll_init, List.mem_toFinset]

theorem load_first_record_wins_witness :
    ((URLStore.init [Except.ok ⟨"a", "http://1"⟩, Except.ok ⟨"b", "http://2"⟩,
        Except.ok ⟨"a", "http://3"⟩]).load none).2.Get "a" = "http://1" :=
  (load_first_record_wins [⟨"a", "http://1"⟩, ⟨"b", "http://2"⟩, ⟨"a", "http://3"⟩]).2.2.2.1
    "a" ⟨"a", "http://1"⟩ rfl

/-- C9: partial log tolerance.  For a log made of decoded records `pre`
followed by a decode failure `e` and anything after it, `NewURLStore` returns a
store whatever the seek does, and the store it returns after replaying the log
holds exactly what replaying `pre` alone gives: its keys are the keys of `pre`,
each bound to the URL of the first record of `pre` carrying it, and nothing
that follows the failure is inserted. -/
theorem load_partial_log (pre : List record) (e : error) (rest : List (Except error record)) :
    (∀ seek, (NewURLStore (Except.ok (pre.map Except.ok ++ Except.error e :: rest)) seek).isSome
        = true) ∧
      ∃ s s1, NewURLStore (Except.ok (pre.map Except.ok ++ Except.error e :: rest)) none = some s ∧
        NewURLStore (Except.ok (pre.map Except.ok)) none = some s1 ∧
        s.urls = s1.urls ∧
        s.urls = (setAll (URLStore.init []) pre).urls ∧
        (∀ k, k ∈ s.urls ↔ k ∈ pre.map record.Key) ∧
        ∀ k, s.urls.lookup k = (pre.find? (fun r => decide (r.Key = k))).map record.URL := by
  refine ⟨fun seek => rfl, _, _, NewURLStore_ok_none _, NewURLStore_ok_none _, ?_⟩
  rw [loadLoop_map_ok_error, loadLoop_map_ok]
  have hl : ∀ (f : List (Except error record)) (k : String),
      (setAll (URLStore.init f) pre).urls.lookup k =
        (pre.find? (fun r => decide (r.Key = k))).map record.URL := by
    intro f k
    rw [setAll_lookup]
    have h0 : (URLStore.init f).urls.lookup k = none := Finmap.lookup_empty k
    rw [h0]
  refine ⟨?_, ?_, fun k => mem_setAll_init pre _ k, hl _⟩
  · exact Finmap.ext_lookup (fun k => by rw [hl, hl])
  · exact Finmap.ext_lookup (fun k => by rw [hl, hl])

/-- C10, as the code has it: log/map correspondence.  In every store reached
from `NewURLStore` on an empty log by calls of `Get`, `Set`, `Count` and `Put`
whose appends succeed, no key has more than one record in the log, and every
record of the log has its key in the map (a key absent from the map has no
record). -/
theorem log_map_correspondence (genKey : Nat → String) (seek : Option error)
    (calls : List Call) (s0 s : URLStore)
    (h0 : NewURLStore (Except.ok []) seek = some s0)
    (hc : ∀ c ∈ calls, c.exportedOk = true)
    (hr : runCalls genKey s0 calls = some s) :
    (∀ k, logCount k s.file ≤ 1) ∧ (∀ k, k ∉ s.urls → logCount k s.file = 0) := by
  have hs0 : s0 = URLStore.init [] := by
    simp only [NewURLStore, load_snd, Option.some.injEq] at h0
    subst h0
    cases seek <;> rfl
  subst hs0
  exact runCalls_log_inv genKey calls _ s hc hr (fun k => Nat.zero_le 1) (fun k _ => rfl)

theorem log_map_correspondence_witness :
    logCount "0" [Except.ok ⟨"0", "http://a"⟩] ≤ 1 ∧
      logCount "k" [Except.ok ⟨"0", "http://a"⟩] = 0 :=
  have h := log_map_correspondence (fun n => toString n) none
    [Call.Put "http://a" 1 none, Call.Get "0", Call.Count, Call.Set "1" "http://b"]
    (URLStore.init [])
    ⟨((((URLStore.init []).Set "0" "http://a").2.Set "1" "http://b").2).urls,
      [Except.ok ⟨"0", "http://a"⟩]⟩
    rfl (by decide) rfl
  ⟨h.1 "0", h.2 "k" (by decide)⟩

/-- C10 as stated fails: after `NewURLStore` on an empty log, the single call
`Set "a" "x"` is a sequence of exported calls, and it leaves key `"a"` in the
map with no record in the log. -/
theorem log_map_correspondence_fails_with_Set :
    ¬ (∀ (genKey : Nat → String) (calls : List Call) (s0 s : URLStore),
        NewURLStore (Except.ok []) none = some s0 →
        (∀ c ∈ calls, c.exportedOk = true) →
        runCalls genKey s0 calls = some s →
        ∀ k ∈ s.urls, logCount k s.file = 1) := by
  intro h
  have h1 := h (fun n => toString n) [Call.Set "a" "x"] (URLStore.init [])
    ((URLStore.init []).Set "a" "x").2 rfl (by decide) rfl "a" (by decide)
  exact absurd h1 (by decide)

/-- C11: the map never shrinks and never overwrites.  For every store, every
call among `Get`, `Set`, `Count`, `Put` and `load` that returns, and every key
`k` bound to `v` before the call, `k` is still bound to `v` after it. -/
theorem map_never_shrinks (genKey : Nat → String) (c : Call) (s s1 : URLStore)
    (h : c.run genKey s = some s1) (k v : String) (hk : s.urls.lookup k = some v) :
    s1.urls.lookup k = some v ∧ s1.Get k = v := by
  have key : s1.urls.lookup k = some v := by
    cases c with
    | Get key =>
      simp only [Call.run, Option.some.injEq] at h
      subst h
      exact hk
    | Set key url =>
      simp only [Call.run, Option.some.injEq] at h
      subst h
      exact Set_lookup_keep s key url hk
    | Count =>
      simp only [Call.run, Option.some.injEq] at h
      subst h
      exact hk
    | Put url fuel wr =>
      simp only [Call.run, Option.map_eq_some', Prod.exists, exists_eq_right] at h
      obtain ⟨k0, hp⟩ := h
      exact Put_lookup_keep hp hk
    | load seek =>
      simp only [Call.run, Option.some.injEq] at h
      subst h
      exact load_lookup_keep s seek hk
  exact ⟨key, Get_eq_of_lookup key⟩

theorem map_never_shrinks_witness :
    (((URLStore.init []).Set "0" "http://a").2.Set "1" "http://b").2.Get "0" = "http://a" :=
  (map_never_shrinks (fun n => toString n) (Call.Put "http://b" 1 (some ⟨error.other "disk full", none⟩))
    ((URLStore.init []).Set "0" "http://a").2
    (((URLStore.init []).Set "0" "http://a").2.Set "1" "http://b").2 rfl
    "0" "http://a" rfl).2

/-- C12: conditional insert on an absent key.  For every store, key `k` not in
the map and value `v`, `Set k v` returns true; afterwards `Get k` is `v`, every
other key is bound exactly as before, `Count` has grown by exactly 1, and the
log is untouched. -/
theorem Set_absent_inserts (s : URLStore) (k v : String) (h : k ∉ s.urls) :
    (s.Set k v).1 = true ∧ (s.Set k v).2.Get k = v ∧
      (s.Set k v).2.urls.lookup k = some v ∧
      (∀ k2, k2 ≠ k → (s.Set k v).2.urls.lookup k2 = s.urls.lookup k2 ∧
        (s.Set k v).2.Get k2 = s.Get k2) ∧
      (s.Set k v).2.Count = s.Count + 1 ∧ (s.Set k v).2.file = s.file := by
  rw [Set_of_not_mem v h]
  have hl : (s.urls.insert k v).lookup k = some v := Finmap.lookup_insert _
  refine ⟨rfl, Get_eq_of_lookup hl, hl, fun k2 hne => ?_, ?_, rfl⟩
  · have e : (s.urls.insert k v).lookup k2 = s.urls.lookup k2 :=
      Finmap.lookup_insert_of_ne _ hne
    refine ⟨e, ?_⟩
    simp only [URLStore.Get, e]
  · simp only [URLStore.Count]
    exact card_insert_of_not_mem v h

theorem Set_absent_inserts_witness :
    (((URLStore.init []).Set "a" "x").2.Set "b" "y").1 = true ∧
      (((URLStore.init []).Set "a" "x").2.Set "b" "y").2.Get "b" = "y" ∧
      (((URLStore.init []).Set "a" "x").2.Set "b" "y").2.Count = 2 :=
  have h := Set_absent_inserts ((URLStore.init []).Set "a" "x").2 "b" "y" (by decide)
  ⟨h.1, h.2.1, h.2.2.2.2.1⟩

/-- C13: append failure is non-fatal.  Whenever `Put v` returns, it returns the
same key and leaves the same map whether `save` succeeds or fails with an
error, whatever the failed write left in the file; when it fails the entry is
still in memory (`Get` of the returned key gives `v`, bound in the map) and the
log has gained no record. -/
theorem Put_save_failure_nonfatal (genKey : Nat → String) (wr : Option WriteFailure)
    (fuel : Nat) (s : URLStore) (v k : String) (s1 : URLStore) (w : WriteFailure)
    (h : Put genKey wr fuel s v = some (k, s1)) :
    ∃ s2 s3, Put genKey none fuel s v = some (k, s2) ∧
      Put genKey (some w) fuel s v = some (k, s3) ∧
      s3.urls = s2.urls ∧ s3.urls = s1.urls ∧
      s3.Get k = v ∧ s3.urls.lookup k = some v ∧
      ∀ k2, logCount k2 s3.file = logCount k2 s.file := by
  obtain ⟨hf, hk, rfl, rfl⟩ := (Put_eq_some_iff genKey wr fuel s v k s1).mp h
  have h2 := (Put_eq_some_iff genKey none fuel s v (genKey s.Count) _).mpr ⟨hf, hk, rfl, rfl⟩
  have h3 := (Put_eq_some_iff genKey (some w) fuel s v (genKey s.Count) _).mpr ⟨hf, hk, rfl, rfl⟩
  have hl : (URLStore.save { s with urls := s.urls.insert (genKey s.Count) v }
      (genKey s.Count) v (some w)).2.urls.lookup (genKey s.Count) = some v := by
    rw [save_urls]
    exact Finmap.lookup_insert _
  refine ⟨_, _, h2, h3, ?_, ?_, Get_eq_of_lookup hl, hl, fun k2 => ?_⟩
  · rw [save_urls, save_urls]
  · rw [save_urls, save_urls]
  · rw [save_file_urls_irrelevant]
    exact save_failed_logCount s (genKey s.Count) v w k2

theorem Put_save_failure_nonfatal_witness :
    ∃ s3, Put (fun n => toString n)
        (some ⟨error.other "disk full", some (error.other "unexpected EOF")⟩) 2
        (URLStore.init []) "http://a" = some ("0", s3) ∧
      s3.Get "0" = "http://a" ∧ logCount "0" s3.file = 0 :=
  match Put_save_failure_nonfatal (fun n => toString n) none 2 (URLStore.init [])
    "http://a" "0" _ ⟨error.other "disk full", some (error.other "unexpected EOF")⟩ rfl with
  | ⟨_, s3, _, h3, _, _, hg, _, hf⟩ => ⟨s3, h3, hg, hf "0"⟩

/-- C14: the result of `load`.  `load` returns nil exactly when the seek
succeeds and the first decode failure is `io.EOF`; when the seek fails it
returns the error of the seek, and when the first decode failure is another
error it returns that error. -/
theorem load_result (s : URLStore) (seek : Option error) :
    ((s.load seek).1 = none ↔ seek = none ∧ firstDecodeFailure s.file = error.EOF) ∧
      (∀ e, seek = some e → (s.load seek).1 = some e) ∧
      (seek = none → firstDecodeFailure s.file ≠ error.EOF →
        (s.load seek).1 = some (firstDecodeFailure s.file)) := by
  cases seek with
  | some e =>
    refine ⟨?_, ?_, ?_⟩
    · simp [URLStore.load]
    · intro e1 h
      simp only [Option.some.injEq] at h
      subst h
      rfl
    · intro h; cases h
  | none =>
    rw [load_fst_none]
    refine ⟨?_, ?_, ?_⟩
    · by_cases h : firstDecodeFailure s.file = error.EOF <;> simp [h]
    · intro e h; cases h
    · intro _ h
      simp [h]

theorem load_result_witness :
    ((URLStore.init [Except.ok ⟨"a", "x"⟩, Except.error (error.other "unexpected EOF"),
        Except.ok ⟨"b", "y"⟩]).load none).1 = some (error.other "unexpected EOF") :=
  (load_result (URLStore.init [Except.ok ⟨"a", "x"⟩, Except.error (error.other "unexpected EOF"),
        Except.ok ⟨"b", "y"⟩]) none).2.2 rfl (by decide)

/-- C15: concurrent safety.  With `Count`, `Set` and the append of `save` as
atomic steps, start any number of calls of `Put` and let them take steps in any
order.  At every point of the interleaving, in particular once all calls have
returned, no two calls have returned the same key, `Get` of the key a call
returned gives the value passed to that call, and that value is the one the
call was started with. -/
theorem concurrent_Put_safe (genKey : Nat → String) (s0 : URLStore) (calls0 : List PutCall)
    (sched : List Nat) (h0 : ∀ c ∈ calls0, c.pc = PutPc.atCount) :
    (∀ (j1 j2 : Nat) (c1 c2 : PutCall) (k : String),
        (runSchedule genKey (s0, calls0) sched).2[j1]? = some c1 →
        (runSchedule genKey (s0, calls0) sched).2[j2]? = some c2 →
        c1.pc = PutPc.returned k → c2.pc = PutPc.returned k → j1 = j2) ∧
      (∀ (j : Nat) (c : PutCall) (k : String),
        (runSchedule genKey (s0, calls0) sched).2[j]? = some c → c.pc = PutPc.returned k →
        (runSchedule genKey (s0, calls0) sched).1.Get k = c.url ∧
          (calls0.map PutCall.url)[j]? = some c.url) := by
  have hnone : ∀ (j : Nat) (c : PutCall), calls0[j]? = some c → c.key? = none := by
    intro j c hj
    have hpc := h0 c (List.mem_iff_getElem?.mpr ⟨j, hj⟩)
    simp [PutCall.key?, hpc]
  obtain ⟨⟨hu, -⟩, hA, hB⟩ := runSchedule_inv genKey sched (s0, calls0)
    (fun j c k hj hk => by rw [hnone j c hj] at hk; cases hk)
    (fun j1 j2 c1 c2 k hj1 _ hk _ => by rw [hnone j1 c1 hj1] at hk; cases hk)
  have hkey : ∀ (c : PutCall) (k : String), c.pc = PutPc.returned k → c.key? = some k := by
    intro c k hc
    simp [PutCall.key?, hc]
  refine ⟨fun j1 j2 c1 c2 k h1 h2 hc1 hc2 => hB j1 j2 c1 c2 k h1 h2 (hkey c1 k hc1) (hkey c2 k hc2),
    fun j c k hj hc => ⟨Get_eq_of_lookup (hA j c k hj (hkey c k hc)), ?_⟩⟩
  have hm : ((runSchedule genKey (s0, calls0) sched).2.map PutCall.url)[j]? = some c.url := by
    rw [List.getElem?_map, hj]
    rfl
  rw [hu] at hm
  exact hm

theorem concurrent_Put_safe_witness :
    (runSchedule (fun n => toString n) (URLStore.init [],
        [⟨"http://a", none, PutPc.atCount⟩, ⟨"http://b", none, PutPc.atCount⟩])
        [0, 1, 0, 1, 1, 1, 1, 0]).2
      = [⟨"http://a", none, PutPc.returned "0"⟩, ⟨"http://b", none, PutPc.returned "1"⟩] ∧
    (runSchedule (fun n => toString n) (URLStore.init [],
        [⟨"http://a", none, PutPc.atCount⟩, ⟨"http://b", none, PutPc.atCount⟩])
        [0, 1, 0, 1, 1, 1, 1, 0]).1.Get "1" = "http://b" :=
  ⟨rfl, ((concurrent_Put_safe (fun n => toString n) (URLStore.init [])
    [⟨"http://a", none, PutPc.atCount⟩, ⟨"http://b", none, PutPc.atCount⟩]
    [0, 1, 0, 1, 1, 1, 1, 0] (by decide)).2 1 ⟨"http://b", none, PutPc.returned "1"⟩ "1"
    rfl rfl).1⟩

/-- C16, as the code has it: `Put` calls `save` after `Set` has returned, so the
call of `save` is a step of its own, made after the lock is released.  Under
any interleaving of concurrent calls of `Put` in which all calls return, `save`
is called exactly once for each pair inserted into the map, with that pair:
the sequence of the calls of `save` is a permutation of the sequence of the
inserts. -/
theorem concurrent_save_perm (genKey : Nat → String) (s0 : URLStore) (calls0 : List PutCall)
    (sched : List Nat) (h0 : ∀ c ∈ calls0, c.pc = PutPc.atCount)
    (hret : ∀ c ∈ (runSchedule genKey (s0, calls0) sched).2, ∃ k, c.pc = PutPc.returned k) :
    (saveTrace genKey (s0, calls0) sched).Perm (insertTrace genKey (s0, calls0) sched) := by
  have hp := runSchedule_trace genKey sched (s0, calls0)
  rw [filterMap_pending_of_returned _ hret] at hp
  have h1 : (s0, calls0).2.filterMap PutCall.pending = [] := filterMap_pending_of_atCount calls0 h0
  rw [h1] at hp
  simpa only [List.append_nil, List.nil_append] using hp

theorem concurrent_save_perm_witness :
    ([⟨"1", "http://b"⟩, ⟨"0", "http://a"⟩] : List record).Perm
      [⟨"0", "http://a"⟩, ⟨"1", "http://b"⟩] :=
  concurrent_save_perm (fun n => toString n) (URLStore.init [])
    [⟨"http://a", none, PutPc.atCount⟩, ⟨"http://b", none, PutPc.atCount⟩]
    [0, 0, 1, 1, 1, 0] (by decide) (by
      intro c hc
      have hfin : (runSchedule (fun n => toString n) (URLStore.init [],
          [⟨"http://a", none, PutPc.atCount⟩, ⟨"http://b", none, PutPc.atCount⟩])
          [0, 0, 1, 1, 1, 0]).2
          = [⟨"http://a", none, PutPc.returned "0"⟩, ⟨"http://b", none, PutPc.returned "1"⟩] := rfl
      rw [hfin] at hc
      simp only [List.mem_cons, List.mem_singleton, List.not_mem_nil, or_false] at hc
      rcases hc with rfl | rfl
      · exact ⟨"0", rfl⟩
      · exact ⟨"1", rfl⟩)

/-- C16 as stated fails: two calls `Put "http://a"` and `Put "http://b"` on an
empty store, interleaved so that the first inserts, then the second inserts
and saves, then the first saves.  Both return, the inserts occur in the order
`"0"`, `"1"`, the calls of `save` in the order `"1"`, `"0"`, and the first
record of the log is the one of the second insert. -/
theorem concurrent_log_order_differs :
    (runSchedule (fun n => toString n) (URLStore.init [],
        [⟨"http://a", none, PutPc.atCount⟩, ⟨"http://b", none, PutPc.atCount⟩])
        [0, 0, 1, 1, 1, 0]).2
      = [⟨"http://a", none, PutPc.returned "0"⟩, ⟨"http://b", none, PutPc.returned "1"⟩] ∧
    insertTrace (fun n => toString n) (URLStore.init [],
        [⟨"http://a", none, PutPc.atCount⟩, ⟨"http://b", none, PutPc.atCount⟩])
        [0, 0, 1, 1, 1, 0] = [⟨"0", "http://a"⟩, ⟨"1", "http://b"⟩] ∧
    saveTrace (fun n => toString n) (URLStore.init [],
        [⟨"http://a", none, PutPc.atCount⟩, ⟨"http://b", none, PutPc.atCount⟩])
        [0, 0, 1, 1, 1, 0] = [⟨"1", "http://b"⟩, ⟨"0", "http://a"⟩] ∧
    (runSchedule (fun n => toString n) (URLStore.init [],
        [⟨"http://a", none, PutPc.atCount⟩, ⟨"http://b", none, PutPc.atCount⟩])
        [0, 0, 1, 1, 1, 0]).1.file
      = [Except.ok ⟨"1", "http://b"⟩, Except.error duplicateType] ∧
    (runSchedule (fun n => toString n) (URLStore.init [],
        [⟨"http://a", none, PutPc.atCount⟩, ⟨"http://b", none, PutPc.atCount⟩])
        [0, 0, 1, 1, 1, 0]).1.file
      ≠ (insertTrace (fun n => toString n) (URLStore.init [],
        [⟨"http://a", none, PutPc.atCount⟩, ⟨"http://b", none, PutPc.atCount⟩])
        [0, 0, 1, 1, 1, 0]).map Except.ok := by
  refine ⟨rfl, rfl, rfl, rfl, ?_⟩
  show ([Except.ok ⟨"1", "http://b"⟩, Except.error duplicateType] : List (Except error record))
    ≠ [Except.ok ⟨"0", "http://a"⟩, Except.ok ⟨"1", "http://b"⟩]
  intro h
  have h1 := (List.cons.inj h).1
  have h2 : (⟨"1", "http://b"⟩ : record) = ⟨"0", "http://a"⟩ := Except.ok.inj h1
  exact absurd h2 (by decide)

/-- C17 fails on the code.  After `Put "http://a"` on an empty store with an
empty log, the store has `Count` 1 and `"1"` is not a key.  `Put "http://b"`
then returns `"1"` within one iteration and adds exactly the pair
`("1", "http://b")` to the map, and its append succeeds; but `save` sent the
type definition again, so what the log has gained at its end is not the record
`("1", "http://b")`: a decoder fails there, and the log has no record of key
`"1"`. -/
theorem second_Put_record_not_decodable :
    ∃ s1 s2, Put (fun n => toString n) none 1 (URLStore.init []) "http://a" = some ("0", s1) ∧
      s1.file = [Except.ok ⟨"0", "http://a"⟩] ∧ s1.Count = 1 ∧ "1" ∉ s1.urls ∧
      Put (fun n => toString n) none 1 s1 "http://b" = some ("1", s2) ∧
      s2.urls = s1.urls.insert "1" "http://b" ∧ s2.Get "1" = "http://b" ∧
      s2.file = s1.file ++ [Except.error duplicateType] ∧
      logCount "1" s2.file = 0 ∧
      s2.file ≠ s1.file ++ [Except.ok ⟨"1", "http://b"⟩] := by
  refine ⟨_, _, rfl, rfl, rfl, by decide, rfl, rfl, rfl, rfl, rfl, ?_⟩
  show ([Except.ok ⟨"0", "http://a"⟩, Except.error duplicateType] : List (Except error record))
    ≠ [Except.ok ⟨"0", "http://a"⟩, Except.ok ⟨"1", "http://b"⟩]
  intro h
  have h1 := (List.cons.inj (List.cons.inj h).2).1
  cases h1

/-- C18: `Put` always returns on a store filled by `Put` alone when `genKey` is
injective.  Starting from the empty store, a sequence of `n` calls of `Put`,
each allowed a single iteration of its loop, returns the keys `genKey 0`, ...,
`genKey (n - 1)` in this order; afterwards the key set of the map is exactly
these keys and `Count` is `n`. -/
theorem Put_only_injective (genKey : Nat → String) (hinj : Function.Injective genKey)
    (f : List (Except error record)) (calls : List (String × Option WriteFailure)) :
    ∃ s, PutSeq genKey (URLStore.init f) (calls.map (fun c => (c.1, 1, c.2)))
        = some ((List.range calls.length).map genKey, s) ∧
      s.urls.keys = (Finset.range calls.length).image genKey ∧
      s.Count = calls.length := by
  have h0 : (URLStore.init f).urls.keys = (Finset.range 0).image genKey := by
    simp [URLStore.init, Finmap.keys_empty]
  obtain ⟨s, hs, hk⟩ := PutSeq_injective_from hinj calls (URLStore.init f) 0 h0
  rw [Nat.zero_add] at hk
  refine ⟨s, ?_, hk, (Count_of_keys_eq hinj hk).1⟩
  rw [hs, List.range_eq_range']

theorem Put_only_injective_witness :
    ∃ s, PutSeq (fun n => String.mk (List.replicate n 'a')) (URLStore.init [])
        [("http://a", 1, none), ("http://b", 1, some ⟨error.other "disk full", none⟩),
          ("http://c", 1, none)] = some (["", "a", "aa"], s) ∧ s.Count = 3 :=
  match Put_only_injective (fun n => String.mk (List.replicate n 'a'))
    (fun a b e => by
      have e2 := congrArg (fun t : String => t.data.length) e
      simpa using e2)
    [] [("http://a", none), ("http://b", some ⟨error.other "disk full", none⟩), ("http://c", none)] with
  | ⟨s, hs, _, hc⟩ => ⟨s, hs, hc⟩

end URLStoreModel
